import Mathlib

/-!
Verification of the mozc composition buffer (`composer/internal/composition.cc`)
against its natural-language specification.

The buffer (`Composition`) owns an ordered list of chunks.  `composition.cc`
only manipulates chunks through a narrow interface (`GetLength`, `SplitChunk`,
`AddInput`, `SetTransliterator`, `IsAppendable`, the `Append*Result` renderers);
the chunk implementation itself (`CharChunk`) and the rule table are external to
the analysed sources, so those operations are modelled from the specification
and are marked as such.  Iterators of the C++ `std::list` are embedded as plain
indices; dereferencing the end-of-sequence iterator (undefined behaviour in the
original) is made observable by returning `Option.none` in the operations where
it can occur.
-/

set_option linter.unusedVariables false

namespace Mozc

/-- Rendering policies (transliterators).  Policies are compared by identity.
`rawT` displays the raw keystroke text of a chunk, `convT` displays its
converted output followed by the still-pending remainder (the chunk-default
view). -/
inductive T12r where
  | rawT
  | convT
deriving DecidableEq

/-- The `kNullT12r` sentinel of `composition.cc` (a NULL transliterator
pointer): `none` means "ask the chunk for its own override". -/
def kNullT12r : Option T12r := none

/-- Modelled from the spec: a chunk of the composition buffer (`CharChunk` is
not part of the analysed sources).  Per §3 of the spec it owns unconverted
keystroke text `raw`, rule-table output `converted`, a not-yet-matched suffix
`pending`, and an optional per-chunk rendering override `t12r`. -/
structure CharChunk where
  raw : List Char
  converted : List Char
  pending : List Char
  t12r : Option T12r
deriving DecidableEq

/-- Modelled from the spec: the external rule table, a finite list of
longest-prefix rules mapping a raw key sequence to converted output. -/
structure Table where
  rules : List (List Char × List Char)
deriving DecidableEq

/-- Modelled from the spec: `CharChunk::GetTransliterator` — a non-NULL
requested policy wins, otherwise the chunk's own override (possibly NULL). -/
def CharChunk.getT12r (c : CharChunk) (t : Option T12r) : Option T12r :=
  match t with
  | some u => some u
  | none => c.t12r

/-- Modelled from the spec: the string a chunk displays under a policy
argument.  A NULL argument falls back to the chunk override, and an absent
override to the chunk-default `convT` view. -/
def CharChunk.text (c : CharChunk) (t : Option T12r) : List Char :=
  match (c.getT12r t).getD T12r.convT with
  | T12r.rawT => c.raw
  | T12r.convT => c.converted ++ c.pending

/-- Modelled from the spec: `CharChunk::GetLength` — the unit count of the
displayed string under the given policy. -/
def CharChunk.getLength (c : CharChunk) (t : Option T12r) : Nat :=
  (c.text t).length

/-- Modelled from the spec: `CharChunk::SetTransliterator` sets the per-chunk
rendering override. -/
def CharChunk.setT12r (c : CharChunk) (t : Option T12r) : CharChunk :=
  { c with t12r := t }

/-- Modelled from the spec: `CharChunk::SplitChunk` — the left part receives
exactly `n` display units (when `n` is in range), the right part keeps the
remainder, and both halves keep the original override (§4.1, §"Split-on-demand"
of the spec).  Each text field is divided at the single canonical index `n`. -/
def CharChunk.splitChunk (c : CharChunk) (t : Option T12r) (n : Nat) :
    CharChunk × CharChunk :=
  (⟨c.raw.take n, c.converted.take n,
    c.pending.take (n - c.converted.length), c.t12r⟩,
   ⟨c.raw.drop n, c.converted.drop n,
    c.pending.drop (n - c.converted.length), c.t12r⟩)

/-- Modelled from the spec: `CharChunk::IsAppendable` — a chunk is open for
merging additional input when its override does not conflict with the buffer's
input policy. -/
def CharChunk.isAppendable (c : CharChunk) (t : Option T12r) : Bool :=
  c.t12r == t

/-- True when the table still awaits more input for `p`: some rule key has `p`
as a proper prefix (longest-prefix-match semantics of the spec §6). -/
def Table.awaitsMore (tb : Table) (p : List Char) : Bool :=
  tb.rules.any (fun r => p.isPrefixOf r.1 && p != r.1)

/-- Exact rule lookup of the table. -/
def Table.lookupRule (tb : Table) (p : List Char) : Option (List Char) :=
  (tb.rules.find? (fun r => r.1 == p)).map Prod.snd

/-- Modelled from the spec: `CharChunk::AddInput` processing a single key.  The
key joins the pending text; if a longer rule could still match, the chunk keeps
waiting, otherwise an exact rule converts the pending text and an unmatched
sequence is committed verbatim. -/
def CharChunk.feedOne (tb : Table) (c : CharChunk) (x : Char) : CharChunk :=
  let p := c.pending ++ [x]
  if tb.awaitsMore p then
    { c with raw := c.raw ++ [x], pending := p }
  else
    match tb.lookupRule p with
    | some out =>
        { raw := c.raw ++ [x], converted := c.converted ++ out, pending := [],
          t12r := c.t12r }
    | none =>
        { raw := c.raw ++ [x], converted := c.converted ++ p, pending := [],
          t12r := c.t12r }

/-- Modelled from the spec: `CharChunk::AddInput` — the keys are consumed one
by one; in this model the chunk accepts the whole input, so the remainder
returned to `Composition::InsertAt`'s loop is always empty. -/
def CharChunk.addInput (tb : Table) (c : CharChunk) (key : List Char) :
    CharChunk :=
  key.foldl (CharChunk.feedOne tb) c

/-- Modelled from the spec: `CharChunk::AppendResult` appends the chunk's
display text under the requested policy. -/
def CharChunk.appendResult (tb : Table) (c : CharChunk) (t : Option T12r) :
    List Char :=
  c.text t

/-- Modelled from the spec: `CharChunk::AppendTrimedResult` drops any trailing
unconverted remainder. -/
def CharChunk.appendTrimedResult (tb : Table) (c : CharChunk)
    (t : Option T12r) : List Char :=
  match (c.getT12r t).getD T12r.convT with
  | T12r.rawT => c.raw
  | T12r.convT => c.converted

/-- Modelled from the spec: `CharChunk::AppendFixedResult` forces full
conversion of incomplete input; the pending remainder is committed as is. -/
def CharChunk.appendFixedResult (tb : Table) (c : CharChunk)
    (t : Option T12r) : List Char :=
  c.text t

/-- Trim modes of `Composition::GetStringWithModes`. -/
inductive TrimMode where
  | trim
  | asis
  | fix
deriving DecidableEq

/-- The composition buffer: an ordered chunk list, the (non-owned) rule table
and the input transliterator applied to newly created chunks. -/
structure Composition where
  chunks : List CharChunk
  table : Table
  inputT12r : Option T12r
deriving DecidableEq

/-- `Composition::GetChunkAt`: walk the chunk list accumulating lengths under
`t`; the first chunk whose length reaches the remaining position is the match
(result: chunk index, inner position).  When no chunk matches, the last chunk
is returned with its full length as inner position; on the empty list the
begin (= end) index 0 with inner position 0 is returned. -/
def getChunkAtAux (t : Option T12r) : List CharChunk → Nat → Nat × Nat
  | [], _ => (0, 0)
  | c :: cs, rest =>
    if rest ≤ c.getLength t then (0, rest)
    else
      match cs with
      | [] => (0, c.getLength t)
      | c2 :: cs2 =>
        let p := getChunkAtAux t (c2 :: cs2) (rest - c.getLength t)
        (p.1 + 1, p.2)

/-- `Composition::GetPosition`: sum of the lengths, under `t`, of the chunks
strictly before index `idx` (the iterator's position). -/
def getPosition (t : Option T12r) (chunks : List CharChunk) (idx : Nat) : Nat :=
  ((chunks.take idx).map (fun c => c.getLength t)).sum

/-- `Composition::GetLength`: the total length under the NULL (chunk-default)
view, `GetPosition(kNullT12r, chunks_.end())`. -/
def Composition.getLength (s : Composition) : Nat :=
  getPosition kNullT12r s.chunks s.chunks.length

/-- `Composition::MaybeSplitChunkAt`: ensure a chunk boundary exists at `pos`;
returns the (possibly split) state and the index the iterator ends up at.  On
position 0 the begin iterator is returned.  When the inner position equals the
chunk's full length the iterator is advanced past the chunk; otherwise the
chunk is split and the iterator stays on the right half.  (On an empty list
the original code would dereference the begin = end iterator; the lookup is
embedded with `Option` and that path leaves the state untouched.) -/
def Composition.maybeSplitChunkAt (s : Composition) (pos : Nat) :
    Composition × Nat :=
  if pos = 0 then (s, 0)
  else
    let ji := getChunkAtAux kNullT12r s.chunks pos
    match s.chunks[ji.1]? with
    | none => (s, ji.1)
    | some c =>
      if ji.2 = c.getLength kNullT12r then (s, ji.1 + 1)
      else
        let lr := c.splitChunk kNullT12r ji.2
        ({ s with chunks :=
             s.chunks.take ji.1 ++ lr.1 :: lr.2 :: s.chunks.drop (ji.1 + 1) },
         ji.1 + 1)

/-- `Composition::DeleteAt`: split at `position`; if the iterator reached the
end the state is unchanged; a chunk of length 1 is erased whole, otherwise a
one-unit prefix is split off and discarded (`left_deleted_chunk` is a
discarded local in the original).  Returns the new state and the position of
the boundary. -/
def Composition.deleteAt (s : Composition) (pos : Nat) : Composition × Nat :=
  let si := s.maybeSplitChunkAt pos
  let newPos := getPosition kNullT12r si.1.chunks si.2
  match si.1.chunks[si.2]? with
  | none => (si.1, newPos)
  | some c =>
    if c.getLength kNullT12r = 1 then
      ({ si.1 with chunks :=
           si.1.chunks.take si.2 ++ si.1.chunks.drop (si.2 + 1) },
       newPos)
    else
      let lr := c.splitChunk kNullT12r 1
      ({ si.1 with chunks :=
           si.1.chunks.take si.2 ++ lr.2 :: si.1.chunks.drop (si.2 + 1) },
       newPos)

/-- `Composition::InsertAt`: no-op on empty input; otherwise split at `pos`,
choose the insertion chunk (`GetInsertionChunk`: the chunk left of the
boundary when appendable, else a fresh chunk carrying the input policy,
inserted before the iterator as `InsertChunk` does) and feed it the input;
returns the position of the iterator under the NULL view. -/
def Composition.insertAt (s : Composition) (pos : Nat) (input : List Char) :
    Composition × Nat :=
  if input = [] then (s, pos)
  else
    let si := s.maybeSplitChunkAt pos
    let s1 := si.1
    let idx := si.2
    if idx = 0 then
      let c := CharChunk.addInput s1.table ⟨[], [], [], s1.inputT12r⟩ input
      let chunks1 := c :: s1.chunks
      ({ s1 with chunks := chunks1 }, getPosition kNullT12r chunks1 1)
    else
      match s1.chunks[idx - 1]? with
      | none => (s1, idx)
      | some left =>
        if left.isAppendable s1.inputT12r then
          let c := CharChunk.addInput s1.table left input
          let chunks1 := s1.chunks.take (idx - 1) ++ c :: s1.chunks.drop idx
          ({ s1 with chunks := chunks1 }, getPosition kNullT12r chunks1 idx)
        else
          let c := CharChunk.addInput s1.table ⟨[], [], [], s1.inputT12r⟩ input
          let chunks1 := s1.chunks.take idx ++ c :: s1.chunks.drop idx
          ({ s1 with chunks := chunks1 },
           getPosition kNullT12r chunks1 (idx + 1))

/-- `Composition::ConvertPosition`: identical transliterators short-circuit;
otherwise locate the chunk containing `posFrom` under `tFrom` and map the
inner position per the four boundary cases of the source. -/
def Composition.convertPosition (s : Composition) (posFrom : Nat)
    (tFrom tTo : Option T12r) : Nat :=
  if tFrom = tTo then posFrom
  else
    let ji := getChunkAtAux tFrom s.chunks posFrom
    match s.chunks[ji.1]? with
    | none => 0
    | some c =>
      let posTo := getPosition tTo s.chunks ji.1
      if ji.2 = 0 then posTo
      else if ji.2 = c.getLength tFrom then posTo + c.getLength tTo
      else if c.getLength tTo < ji.2 then posTo + c.getLength tTo
      else posTo + ji.2

/-- The range-update loop of `Composition::SetTransliterator`: set the
override on every chunk from index `k` up to `endIdx` inclusive.  A
dereference of a non-existent chunk (the end iterator) yields `none`; the fuel
bounds the walk, expiring only if the loop would run past the end of the
list as the C++ `while (chunk_it != end_it)` would. -/
def setT12rLoop (t : Option T12r) (endIdx : Nat) :
    Nat → List CharChunk → Nat → Option (List CharChunk)
  | fuel, chunks, k =>
    match chunks[k]? with
    | none => none
    | some c =>
      let chunks1 := chunks.take k ++ c.setT12r t :: chunks.drop (k + 1)
      if k = endIdx then some chunks1
      else
        match fuel with
        | 0 => none
        | fuel' + 1 => setT12rLoop t endIdx fuel' chunks1 (k + 1)

/-- `Composition::SetTransliterator`: on `position_from > position_to` an
error is logged and the state is returned unchanged; otherwise the chunks
spanning the range are located with `GetChunkAt` and updated.  `none` records
that the original would have dereferenced the end-of-sequence iterator. -/
def Composition.setTransliterator (s : Composition)
    (posFrom posTo : Nat) (t : Option T12r) : Option Composition :=
  if posTo < posFrom then some s
  else
    let j1 := (getChunkAtAux kNullT12r s.chunks posFrom).1
    let j2 := (getChunkAtAux kNullT12r s.chunks posTo).1
    (setT12rLoop t j2 (s.chunks.length + 1) s.chunks j1).map
      (fun cs => { s with chunks := cs })

/-- `Composition::GetTransliterator`: locate the chunk at `pos` and ask it for
its effective transliterator.  `none` records a dereference of the
end-of-sequence iterator (empty buffer). -/
def Composition.getTransliterator (s : Composition) (pos : Nat) :
    Option (Option T12r) :=
  let j := (getChunkAtAux kNullT12r s.chunks pos).1
  (s.chunks[j]?).map (fun c => c.getT12r kNullT12r)

/-- `Composition::GetStringWithModes`: the empty buffer logs a warning and
yields the empty string; otherwise every chunk but the last renders in full
and the last renders per the trim mode. -/
def Composition.getStringWithModes (s : Composition) (t : Option T12r)
    (m : TrimMode) : List Char :=
  match s.chunks.getLast? with
  | none => []
  | some lastChunk =>
    let init :=
      (s.chunks.dropLast.map (fun c => CharChunk.appendResult s.table c t)).flatten
    match m with
    | TrimMode.trim => init ++ CharChunk.appendTrimedResult s.table lastChunk t
    | TrimMode.asis => init ++ CharChunk.appendResult s.table lastChunk t
    | TrimMode.fix => init ++ CharChunk.appendFixedResult s.table lastChunk t

/-- `Composition::GetString`: the empty buffer logs a warning and yields the
empty string; otherwise the chunks render in full under the NULL view. -/
def Composition.getString (s : Composition) : List Char :=
  if s.chunks.isEmpty then []
  else (s.chunks.map (fun c => CharChunk.appendResult s.table c kNullT12r)).flatten

/-- The full display of a chunk list under the NULL (chunk-default) view. -/
def dAll (chunks : List CharChunk) : List Char :=
  (chunks.map (fun c => c.text kNullT12r)).flatten

/-- A table never shrinks text by more than one unit: no rule's output is more
than one unit shorter than its key. -/
def Table.nonShrinking (tb : Table) : Prop :=
  ∀ r ∈ tb.rules, r.1.length ≤ r.2.length + 1


/-- The spec's concrete example rule table (§8): `ka→か`, `ki→き`, `tto→っと`
(`tt` pending awaiting `o`). -/
def tbKa : Table :=
  ⟨[(['k','a'], ['か']), (['k','i'], ['き']), (['t','t','o'], ['っ','と'])]⟩

/-- A chunk holding the single pending keystroke `k`. -/
def chK : CharChunk := ⟨['k'], [], ['k'], none⟩

/-- Buffer holding the pending chunk `k` with the example table. -/
def sK : Composition := ⟨[chK], tbKa, none⟩

/-- Buffer rendering `かき` as two one-unit chunks. -/
def sKaKi : Composition :=
  ⟨[⟨['k','a'], ['か'], [], none⟩, ⟨['k','i'], ['き'], [], none⟩], tbKa, none⟩

/-- C9: with identical source and target policies, `ConvertPosition` returns
the position unchanged on every buffer state, with no clamping and no chunk
lookup (the identity shortcut at the top of the function). -/
theorem convertPosition_same_policy_id (s : Composition) (pos : Nat)
    (t : Option T12r) : s.convertPosition pos t t = pos := by
  simp [Composition.convertPosition]

/-- C5: inserting the empty string at any position leaves the buffer
completely unchanged and returns the position itself. -/
theorem insertAt_empty_input_noop (s : Composition) (pos : Nat) :
    s.insertAt pos [] = (s, pos) := by
  simp [Composition.insertAt]

/-- C6: `SetTransliterator` with `position_from > position_to` logs an error
and returns without touching any chunk or override; in the checked embedding
it yields `some` of the unchanged state (no crash, no modification). -/
theorem setTransliterator_invalid_range_noop (s : Composition)
    (posFrom posTo : Nat) (t : Option T12r) (h : posTo < posFrom) :
    s.setTransliterator posFrom posTo t = some s := by
  simp [Composition.setTransliterator, h]

/-- Witness for C6 at a concrete invalid range. -/
theorem setTransliterator_invalid_range_noop_witness :
    (2 < 5) ∧ sKaKi.setTransliterator 5 2 (some T12r.rawT) = some sKaKi :=
  ⟨by decide, setTransliterator_invalid_range_noop sKaKi 5 2 (some T12r.rawT)
    (by decide)⟩

/-- C7: on the empty buffer both renderers log a warning and return the empty
string, for every policy and every trim mode; being pure functions of the
state they modify nothing. -/
theorem render_empty_buffer (s : Composition) (t : Option T12r) (m : TrimMode)
    (h : s.chunks = []) :
    s.getStringWithModes t m = [] ∧ s.getString = [] := by
  constructor <;> simp [Composition.getStringWithModes, Composition.getString, h]

/-- Witness for C7 on a concrete empty buffer. -/
theorem render_empty_buffer_witness :
    (Composition.mk [] tbKa none).chunks = [] ∧
      (Composition.mk [] tbKa none).getStringWithModes (some T12r.rawT)
        TrimMode.trim = [] ∧
      (Composition.mk [] tbKa none).getString = [] :=
  ⟨rfl, render_empty_buffer (Composition.mk [] tbKa none) (some T12r.rawT)
    TrimMode.trim rfl⟩

/-- Counterexample to C2 as stated.  First input: on the empty buffer (no
chunk contains position 5) with equal policies, `ConvertPosition` returns 5,
not 0, because the identity shortcut fires first.  Second input: on a
non-empty buffer of total length 1 under `rawT` (so no chunk contains
position 5) with distinct policies, the lookup clamps to the last chunk and
returns 1, not 0. -/
theorem convertPosition_fallback_cex :
    (Composition.mk [] (Table.mk []) none).convertPosition 5 kNullT12r
        kNullT12r = 5 ∧
      sK.convertPosition 5 (some T12r.rawT) kNullT12r = 1 := by
  constructor <;> rfl

/-- C2 (amended): with distinct policies, on the empty buffer — the only
state in which the chunk lookup comes back empty-handed — `ConvertPosition`
returns 0 as a defined fallback and never fails. -/
theorem convertPosition_empty_eq_zero (s : Composition) (pos : Nat)
    (tFrom tTo : Option T12r) (hne : tFrom ≠ tTo) (h : s.chunks = []) :
    s.convertPosition pos tFrom tTo = 0 := by
  simp [Composition.convertPosition, hne, h, getChunkAtAux]

/-- Witness for the amended C2 at a concrete input. -/
theorem convertPosition_empty_eq_zero_witness :
    ((some T12r.rawT ≠ kNullT12r) ∧ (Composition.mk [] tbKa none).chunks = []) ∧
      (Composition.mk [] tbKa none).convertPosition 7 (some T12r.rawT)
        kNullT12r = 0 :=
  ⟨⟨by decide, rfl⟩, convertPosition_empty_eq_zero
    (Composition.mk [] tbKa none) 7 (some T12r.rawT) kNullT12r
    (by decide) rfl⟩

/-- C10 (failing input): on the empty buffer, `SetTransliterator(0, 0, t)`
(a call with `position_from ≤ position_to`) and `GetTransliterator(0)` both
dereference the end-of-sequence iterator — `GetChunkAt` returns the begin
(= end) iterator and lines 206 / 215 of `composition.cc` dereference it.
The checked embedding observes the invalid dereference as `none`. -/
theorem setTransliterator_empty_deref :
    (Composition.mk [] tbKa none).setTransliterator 0 0 (some T12r.rawT)
        = none ∧
      (Composition.mk [] tbKa none).getTransliterator 0 = none :=
  ⟨rfl, rfl⟩

/-- Counterexample to C8 as stated: inserting the non-empty string `a` at the
end of the buffer holding the single pending chunk `k` (the spec's own
`ka→か` scenario) merges the input into that chunk, which converts to `か`;
the length under the default view stays 1, so the insertion does not strictly
increase the length. -/
theorem insertAt_strict_increase_cex :
    sK.getLength = 1 ∧ (sK.insertAt 1 ['a']).1.getLength = 1 ∧
      ¬ sK.getLength < (sK.insertAt 1 ['a']).1.getLength := by
  refine ⟨by decide, by decide, by decide⟩


/-- `GetPosition` over a cons cell, one step. -/
theorem getPosition_cons_succ (t : Option T12r) (c : CharChunk)
    (cs : List CharChunk) (j : Nat) :
    getPosition t (c :: cs) (j + 1) = c.getLength t + getPosition t cs j := by
  simp [getPosition, List.take_succ_cons]

/-- The chunk lookup finds chunk `j` with inner position `i` whenever the
position decomposes as the sum of the first `j` lengths plus `i ≤ len j` and
`j` is the first such chunk (`j = 0`, or `i ≥ 1`, so that no earlier chunk
already absorbed the position). -/
theorem getChunkAtAux_eq (t : Option T12r) (chunks : List CharChunk) :
    ∀ (j i : Nat) (c : CharChunk),
      chunks[j]? = some c → i ≤ c.getLength t → (j = 0 ∨ 1 ≤ i) →
      getChunkAtAux t chunks (getPosition t chunks j + i) = (j, i) := by
  induction chunks with
  | nil => intro j i c hc _ _; simp at hc
  | cons c0 cs ih =>
    intro j i c hc hi hfirst
    cases j with
    | zero =>
      simp only [List.getElem?_cons_zero, Option.some.injEq] at hc
      subst hc
      have h0 : getPosition t (c0 :: cs) 0 = 0 := by simp [getPosition]
      rw [h0, Nat.zero_add, getChunkAtAux.eq_def]
      simp [hi]
    | succ j =>
      simp only [List.getElem?_cons_succ] at hc
      have h1 : 1 ≤ i := by
        rcases hfirst with h | h
        · exact absurd h (Nat.succ_ne_zero j)
        · exact h
      cases cs with
      | nil => simp at hc
      | cons c2 cs2 =>
        rw [getPosition_cons_succ]
        have hrec := ih j i c hc hi (Or.inr h1)
        have harith : c0.getLength t + getPosition t (c2 :: cs2) j + i
            - c0.getLength t = getPosition t (c2 :: cs2) j + i := by omega
        have hcond : ¬ (c0.getLength t + getPosition t (c2 :: cs2) j + i
            ≤ c0.getLength t) := by omega
        rw [getChunkAtAux.eq_def]
        simp [hcond, harith, hrec]

/-- C1: whenever `position_from` falls inside chunk `j` under `policy_from`
with inner offset `i` (first-match decomposition), `ConvertPosition` maps it
by the four boundary cases of the claim: start of chunk for `i = 0`, end of
chunk under the target view when `i` is the chunk's full source length, the
clamped end of chunk when `i` exceeds the target length, and direct placement
`position_to + i` otherwise. -/
theorem convertPosition_cases (s : Composition) (posFrom : Nat)
    (tFrom tTo : Option T12r) (j i : Nat) (c : CharChunk)
    (hc : s.chunks[j]? = some c)
    (hi : i ≤ c.getLength tFrom)
    (hfirst : j = 0 ∨ 1 ≤ i)
    (hpos : posFrom = getPosition tFrom s.chunks j + i) :
    s.convertPosition posFrom tFrom tTo =
      if i = 0 then getPosition tTo s.chunks j
      else if i = c.getLength tFrom then
        getPosition tTo s.chunks j + c.getLength tTo
      else if c.getLength tTo < i then
        getPosition tTo s.chunks j + c.getLength tTo
      else getPosition tTo s.chunks j + i := by
  subst hpos
  by_cases heq : tFrom = tTo
  · subst heq
    simp only [Composition.convertPosition, if_pos rfl]
    split_ifs <;> omega
  · simp only [Composition.convertPosition, if_neg heq,
      getChunkAtAux_eq tFrom s.chunks j i c hc hi hfirst, hc]


/-- A chunk whose raw text `tsu` (3 raw units) converts to `つ` (1 unit). -/
def chTsu : CharChunk := ⟨['t','s','u'], ['つ'], [], none⟩

/-- Buffer holding the single chunk `chTsu`. -/
def sTsu : Composition := ⟨[chTsu], tbKa, none⟩

/-- Witness for C1: position 2 inside the raw view `ts|u` of `chTsu` exceeds
the chunk's length 1 under the target view and is clamped to the end `つ|`. -/
theorem convertPosition_cases_witness :
    (sTsu.chunks[0]? = some chTsu ∧ (2:Nat) ≤ chTsu.getLength (some T12r.rawT)) ∧
      sTsu.convertPosition 2 (some T12r.rawT) kNullT12r = 1 := by
  refine ⟨⟨rfl, by decide⟩, ?_⟩
  have h := convertPosition_cases sTsu 2 (some T12r.rawT) kNullT12r 0 2 chTsu
    rfl (by decide) (Or.inl rfl) (by decide)
  rw [h]
  decide


/-- On a non-empty list of positive-length chunks, looking up the total
length lands on the last chunk with inner position equal to its full
length. -/
theorem getChunkAtAux_total (t : Option T12r) :
    ∀ (chunks : List CharChunk), chunks ≠ [] →
      (∀ c ∈ chunks, 1 ≤ c.getLength t) →
      ∃ c, chunks[chunks.length - 1]? = some c ∧
        getChunkAtAux t chunks ((chunks.map (fun x => x.getLength t)).sum)
          = (chunks.length - 1, c.getLength t) := by
  intro chunks
  induction chunks with
  | nil => intro h _; exact absurd rfl h
  | cons c0 cs ih =>
    intro _ hpos
    cases cs with
    | nil =>
      refine ⟨c0, rfl, ?_⟩
      rw [getChunkAtAux.eq_def]
      simp
    | cons c2 cs2 =>
      obtain ⟨c, hc, haux⟩ := ih (by simp)
        (fun c hc => hpos c (List.mem_cons_of_mem _ hc))
      have hS : 1 ≤ c2.getLength t + (cs2.map (fun x => x.getLength t)).sum := by
        have := hpos c2 (by simp)
        omega
      refine ⟨c, by simpa using hc, ?_⟩
      rw [getChunkAtAux.eq_def]
      have hcond : ¬ (((c0 :: c2 :: cs2).map (fun x => x.getLength t)).sum
          ≤ c0.getLength t) := by
        simp only [List.map_cons, List.sum_cons]
        omega
      have harith : ((c0 :: c2 :: cs2).map (fun x => x.getLength t)).sum
          - c0.getLength t = ((c2 :: cs2).map (fun x => x.getLength t)).sum := by
        simp only [List.map_cons, List.sum_cons]
        omega
      simp only [hcond, if_false, harith, haux]
      simp

/-- Splitting at the total length is a no-op: the iterator lands past the
last chunk (at the end of the sequence) and no chunk is split. -/
theorem maybeSplit_at_end (s : Composition) (hne : s.chunks ≠ [])
    (hpos : ∀ c ∈ s.chunks, 1 ≤ c.getLength kNullT12r) :
    s.maybeSplitChunkAt s.getLength = (s, s.chunks.length) := by
  obtain ⟨cl, hcl, haux⟩ := getChunkAtAux_total kNullT12r s.chunks hne hpos
  have htot : s.getLength
      = (s.chunks.map (fun x => x.getLength kNullT12r)).sum := by
    simp [Composition.getLength, getPosition]
  have h0 : ¬ (s.getLength = 0) := by
    rw [htot]
    have hlt : 0 < (s.chunks.map (fun x => x.getLength kNullT12r)).sum := by
      apply List.sum_pos
      · intro x hx
        obtain ⟨c, hc, rfl⟩ := List.mem_map.mp hx
        exact hpos c hc
      · simpa using hne
    omega
  have hll : s.chunks.length - 1 + 1 = s.chunks.length := by
    have := List.length_pos.mpr hne
    omega
  unfold Composition.maybeSplitChunkAt
  rw [if_neg h0, htot, haux]
  simp [hcl, hll]

/-- C3: deleting at the cursor position `length(default)` — the end of the
buffer, where no chunk exists — leaves the chunk sequence (indeed the whole
state) unchanged and returns the unchanged length; holds on every buffer in
which no zero-length chunk persists (spec §7), including the empty buffer. -/
theorem deleteAt_end_noop (s : Composition)
    (hpos : ∀ c ∈ s.chunks, 1 ≤ c.getLength kNullT12r) :
    s.deleteAt s.getLength = (s, s.getLength) := by
  by_cases hne : s.chunks = []
  · have h0 : s.getLength = 0 := by
      simp [Composition.getLength, hne, getPosition]
    rw [h0]
    unfold Composition.deleteAt Composition.maybeSplitChunkAt
    simp [hne, getPosition, h0]
  · have hms := maybeSplit_at_end s hne hpos
    have hnone : s.chunks[s.chunks.length]? = none := by simp
    unfold Composition.deleteAt
    rw [hms]
    simp [hnone, Composition.getLength]

/-- Witness for C3 on the two-chunk buffer rendering `かき`. -/
theorem deleteAt_end_noop_witness :
    (∀ c ∈ sKaKi.chunks, 1 ≤ c.getLength kNullT12r) ∧
      sKaKi.deleteAt 2 = (sKaKi, 2) := by
  have h := deleteAt_end_noop sKaKi (by decide)
  have h2 : sKaKi.getLength = 2 := by decide
  rw [h2] at h
  exact ⟨by decide, h⟩


/-- Both halves of a split keep the effective transliterator selection of the
original chunk. -/
theorem splitChunk_getT12r_fst (c : CharChunk) (t' t : Option T12r) (n : Nat) :
    ((c.splitChunk t' n).1).getT12r t = c.getT12r t := by
  cases t <;> rfl

/-- Both halves of a split keep the effective transliterator selection of the
original chunk. -/
theorem splitChunk_getT12r_snd (c : CharChunk) (t' t : Option T12r) (n : Nat) :
    ((c.splitChunk t' n).2).getT12r t = c.getT12r t := by
  cases t <;> rfl

/-- Splitting a chunk splits its displayed text: under every policy the two
halves concatenate back to the original display. -/
theorem splitChunk_text_append (c : CharChunk) (t' t : Option T12r) (n : Nat) :
    ((c.splitChunk t' n).1).text t ++ ((c.splitChunk t' n).2).text t
      = c.text t := by
  unfold CharChunk.text
  rw [splitChunk_getT12r_fst, splitChunk_getT12r_snd]
  rcases (c.getT12r t).getD T12r.convT with _ | _
  · simp [CharChunk.splitChunk]
  · simp only [CharChunk.splitChunk]
    rcases le_or_lt n c.converted.length with h | h
    · have hm : n - c.converted.length = 0 := by omega
      rw [hm]
      simp only [List.take_zero, List.drop_zero, List.append_nil]
      rw [← List.append_assoc, List.take_append_drop]
    · have h1 : c.converted.take n = c.converted :=
        List.take_of_length_le (by omega)
      have h2 : c.converted.drop n = [] :=
        List.drop_eq_nil_of_le (by omega)
      rw [h1, h2, List.nil_append, List.append_assoc, List.take_append_drop]

/-- The left half of an in-range split has exactly `n` units. -/
theorem splitChunk_fst_length (c : CharChunk) (t' t : Option T12r) (n : Nat)
    (h : n ≤ c.getLength t) :
    ((c.splitChunk t' n).1).getLength t = n := by
  unfold CharChunk.getLength CharChunk.text at h ⊢
  rw [splitChunk_getT12r_fst]
  rcases hpol : (c.getT12r t).getD T12r.convT with _ | _ <;>
    simp only [hpol] at h ⊢
  · simp only [CharChunk.splitChunk, List.length_take]
    omega
  · simp only [CharChunk.splitChunk, List.length_append, List.length_take]
    simp only [List.length_append] at h
    omega

/-- The right half of an in-range split keeps the remaining units. -/
theorem splitChunk_snd_length (c : CharChunk) (t' t : Option T12r) (n : Nat)
    (h : n ≤ c.getLength t) :
    ((c.splitChunk t' n).2).getLength t = c.getLength t - n := by
  have h1 := congrArg List.length (splitChunk_text_append c t' t n)
  have h2 := splitChunk_fst_length c t' t n h
  simp only [List.length_append] at h1
  unfold CharChunk.getLength at *
  omega

/-- `dAll` is a list homomorphism. -/
theorem dAll_append (a b : List CharChunk) : dAll (a ++ b) = dAll a ++ dAll b := by
  simp [dAll]

/-- The length of the default display is the sum of the chunk lengths. -/
theorem length_dAll (l : List CharChunk) :
    (dAll l).length = (l.map (fun c => c.getLength kNullT12r)).sum := by
  unfold dAll CharChunk.getLength
  rw [List.length_flatten, List.map_map]
  rfl

/-- `GetPosition` measures the default display of the first `k` chunks. -/
theorem getPosition_eq_dAll_take (l : List CharChunk) (k : Nat) :
    getPosition kNullT12r l k = (dAll (l.take k)).length := by
  rw [length_dAll]
  rfl

/-- The buffer's length is the length of its default display. -/
theorem getLength_eq_dAll (s : Composition) :
    s.getLength = (dAll s.chunks).length := by
  rw [Composition.getLength, getPosition_eq_dAll_take, List.take_length]

/-- `GetString` renders the default display. -/
theorem getString_eq_dAll (s : Composition) : s.getString = dAll s.chunks := by
  unfold Composition.getString
  by_cases h : s.chunks.isEmpty
  · rw [if_pos h]
    rw [List.isEmpty_iff] at h
    simp [h, dAll]
  · rw [if_neg h]
    rfl

/-- A successful index lookup decomposes the list around the hit. -/
theorem eq_take_cons_drop {α : Type} (l : List α) (j : Nat) (c : α)
    (h : l[j]? = some c) :
    l = l.take j ++ c :: l.drop (j + 1) := by
  obtain ⟨hj, hg⟩ := List.getElem?_eq_some_iff.mp h
  conv_lhs => rw [← List.take_append_drop j l]
  rw [List.drop_eq_getElem_cons hj, hg]

/-- `GetPosition` one step past a present chunk. -/
theorem getPosition_succ_of_getElem (t : Option T12r) (l : List CharChunk)
    (j : Nat) (c : CharChunk) (h : l[j]? = some c) :
    getPosition t l (j + 1) = getPosition t l j + c.getLength t := by
  unfold getPosition
  rw [List.take_succ, h]
  simp

/-- On a non-empty list, a position within the total length is found in some
chunk: the inner position stays within that chunk's length and the position
decomposes as the sum of the preceding lengths plus the inner position. -/
theorem getChunkAtAux_found (t : Option T12r) :
    ∀ (chunks : List CharChunk) (pos : Nat), chunks ≠ [] →
      pos ≤ (chunks.map (fun x => x.getLength t)).sum →
      ∃ c, chunks[(getChunkAtAux t chunks pos).1]? = some c ∧
        (getChunkAtAux t chunks pos).2 ≤ c.getLength t ∧
        getPosition t chunks (getChunkAtAux t chunks pos).1
          + (getChunkAtAux t chunks pos).2 = pos := by
  intro chunks
  induction chunks with
  | nil => intro pos h _; exact absurd rfl h
  | cons c0 cs ih =>
    intro pos _ hsum
    by_cases hle : pos ≤ c0.getLength t
    · have hstep : getChunkAtAux t (c0 :: cs) pos = (0, pos) := by
        rw [getChunkAtAux.eq_def]
        simp [hle]
      rw [hstep]
      exact ⟨c0, by simp, hle, by simp [getPosition]⟩
    · cases cs with
      | nil =>
        exfalso
        simp only [List.map_cons, List.map_nil, List.sum_cons,
          List.sum_nil] at hsum
        omega
      | cons c2 cs2 =>
        have hsum' : pos - c0.getLength t
            ≤ ((c2 :: cs2).map (fun x => x.getLength t)).sum := by
          simp only [List.map_cons, List.sum_cons] at hsum ⊢
          omega
        obtain ⟨c, hc, hilen, hpos⟩ :=
          ih (pos - c0.getLength t) (by simp) hsum'
        have hstep : getChunkAtAux t (c0 :: c2 :: cs2) pos
            = ((getChunkAtAux t (c2 :: cs2) (pos - c0.getLength t)).1 + 1,
               (getChunkAtAux t (c2 :: cs2) (pos - c0.getLength t)).2) := by
          rw [getChunkAtAux.eq_def]
          simp [hle]
        rw [hstep]
        refine ⟨c, by simpa using hc, hilen, ?_⟩
        rw [getPosition_cons_succ]
        omega


/-- `dAll` over a cons cell. -/
theorem dAll_cons (c : CharChunk) (cs : List CharChunk) :
    dAll (c :: cs) = c.text kNullT12r ++ dAll cs := by
  simp [dAll]

/-- Characterization of `MaybeSplitChunkAt` on a position strictly inside a
buffer without zero-length chunks: the operation preserves the table, the
input policy and the whole default display; the iterator lands at a boundary
whose preceding chunks measure exactly `pos`; and a (positive-length) chunk
sits at the boundary. -/
theorem maybeSplit_spec (s : Composition) (pos : Nat)
    (hpos : ∀ c ∈ s.chunks, 1 ≤ c.getLength kNullT12r)
    (hlt : pos < s.getLength) :
    ∃ s1 idx, s.maybeSplitChunkAt pos = (s1, idx) ∧
      s1.table = s.table ∧ s1.inputT12r = s.inputT12r ∧
      dAll s1.chunks = dAll s.chunks ∧
      getPosition kNullT12r s1.chunks idx = pos ∧
      ∃ c, s1.chunks[idx]? = some c ∧ 1 ≤ c.getLength kNullT12r := by
  have hne : s.chunks ≠ [] := by
    intro hsc
    rw [getLength_eq_dAll, hsc] at hlt
    simp [dAll] at hlt
  by_cases h0 : pos = 0
  · subst h0
    refine ⟨s, 0, ?_, rfl, rfl, rfl, by simp [getPosition], ?_⟩
    · unfold Composition.maybeSplitChunkAt
      rw [if_pos rfl]
    · cases hsc : s.chunks with
      | nil => exact absurd hsc hne
      | cons c0 cs =>
        exact ⟨c0, by simp [hsc], hpos c0 (by rw [hsc]; simp)⟩
  · have hsum : pos ≤ (s.chunks.map (fun x => x.getLength kNullT12r)).sum := by
      rw [getLength_eq_dAll] at hlt
      rw [← length_dAll]
      omega
    obtain ⟨c, hc, hilen, hdec⟩ :=
      getChunkAtAux_found kNullT12r s.chunks pos hne hsum
    obtain ⟨j, i, hpair⟩ :
        ∃ j i, getChunkAtAux kNullT12r s.chunks pos = (j, i) := ⟨_, _, rfl⟩
    simp only [hpair] at hc hilen hdec
    have hjlen : j < s.chunks.length := (List.getElem?_eq_some_iff.mp hc).1
    by_cases hend : i = c.getLength kNullT12r
    · have hms : s.maybeSplitChunkAt pos = (s, j + 1) := by
        unfold Composition.maybeSplitChunkAt
        rw [if_neg h0]
        simp only [hpair, hc]
        rw [if_pos hend]
      have hgp : getPosition kNullT12r s.chunks (j + 1) = pos := by
        rw [getPosition_succ_of_getElem kNullT12r s.chunks j c hc]
        omega
      have hlt2 : j + 1 < s.chunks.length := by
        by_contra hge
        push_neg at hge
        have hfull : getPosition kNullT12r s.chunks (j + 1) = s.getLength := by
          rw [Composition.getLength]
          unfold getPosition
          rw [List.take_of_length_le hge, List.take_length]
        omega
      obtain ⟨c2, hc2⟩ : ∃ x, s.chunks[j + 1]? = some x := by
        rw [List.getElem?_eq_getElem hlt2]
        exact ⟨_, rfl⟩
      refine ⟨s, j + 1, hms, rfl, rfl, rfl, hgp,
        c2, hc2, hpos c2 (List.getElem?_mem hc2)⟩
    · have hilt : i < c.getLength kNullT12r := lt_of_le_of_ne hilen hend
      have hms : s.maybeSplitChunkAt pos
          = ({ s with chunks := s.chunks.take j
                ++ (c.splitChunk kNullT12r i).1 :: (c.splitChunk kNullT12r i).2
                :: s.chunks.drop (j + 1) }, j + 1) := by
        unfold Composition.maybeSplitChunkAt
        rw [if_neg h0]
        simp only [hpair, hc]
        rw [if_neg hend]
      have hAlen : (s.chunks.take j).length = j := by
        rw [List.length_take]
        omega
      have htake : (s.chunks.take j ++ (c.splitChunk kNullT12r i).1
            :: (c.splitChunk kNullT12r i).2 :: s.chunks.drop (j + 1)).take (j + 1)
          = s.chunks.take j ++ [(c.splitChunk kNullT12r i).1] := by
        have h := @List.take_append CharChunk (s.chunks.take j)
          ((c.splitChunk kNullT12r i).1
            :: (c.splitChunk kNullT12r i).2 :: s.chunks.drop (j + 1)) 1
        rw [hAlen] at h
        simpa using h
      have hdall : dAll (s.chunks.take j ++ (c.splitChunk kNullT12r i).1
            :: (c.splitChunk kNullT12r i).2 :: s.chunks.drop (j + 1))
          = dAll s.chunks := by
        conv_rhs => rw [eq_take_cons_drop s.chunks j c hc]
        rw [dAll_append, dAll_append, dAll_cons, dAll_cons, dAll_cons]
        rw [← List.append_assoc ((c.splitChunk kNullT12r i).1.text kNullT12r),
          splitChunk_text_append]
      have hgp : getPosition kNullT12r (s.chunks.take j
            ++ (c.splitChunk kNullT12r i).1 :: (c.splitChunk kNullT12r i).2
            :: s.chunks.drop (j + 1)) (j + 1) = pos := by
        unfold getPosition
        rw [htake, List.map_append, List.sum_append]
        have h2 : (c.splitChunk kNullT12r i).1.getLength kNullT12r = i :=
          splitChunk_fst_length c kNullT12r kNullT12r i (le_of_lt hilt)
        have h1 : ((s.chunks.take j).map
            (fun x => x.getLength kNullT12r)).sum
            = getPosition kNullT12r s.chunks j := rfl
        rw [h1]
        simp [h2]
        omega
      have hcr : (s.chunks.take j ++ (c.splitChunk kNullT12r i).1
            :: (c.splitChunk kNullT12r i).2 :: s.chunks.drop (j + 1))[j + 1]?
          = some (c.splitChunk kNullT12r i).2 := by
        have heq : s.chunks.take j ++ (c.splitChunk kNullT12r i).1
              :: (c.splitChunk kNullT12r i).2 :: s.chunks.drop (j + 1)
            = (s.chunks.take j ++ [(c.splitChunk kNullT12r i).1])
              ++ (c.splitChunk kNullT12r i).2 :: s.chunks.drop (j + 1) := by
          simp
        rw [heq, List.getElem?_append_right (by simp [hAlen])]
        simp [hAlen]
      have hrlen : 1 ≤ (c.splitChunk kNullT12r i).2.getLength kNullT12r := by
        rw [splitChunk_snd_length c kNullT12r kNullT12r i (le_of_lt hilt)]
        omega
      exact ⟨_, j + 1, hms, rfl, rfl, hdall, hgp,
        (c.splitChunk kNullT12r i).2, hcr, hrlen⟩


/-- C4: deleting at a position strictly inside the buffer (no zero-length
chunks persisting) removes exactly one unit of the default view starting at
`pos` — the chunk at the (possibly newly split) boundary is erased whole when
its default length is 1 and otherwise loses a discarded one-unit prefix — and
the returned position is the sum of the lengths of the chunks preceding that
boundary, i.e. `pos` itself. -/
theorem deleteAt_inside_removes_unit (s : Composition) (pos : Nat)
    (hpos : ∀ c ∈ s.chunks, 1 ≤ c.getLength kNullT12r)
    (hlt : pos < s.getLength) :
    (s.deleteAt pos).2 = pos ∧
    (s.deleteAt pos).1.getString
      = s.getString.take pos ++ s.getString.drop (pos + 1) ∧
    (s.deleteAt pos).1.getLength = s.getLength - 1 := by
  obtain ⟨s1, idx, hms, htab, hinp, hdall, hgp, c, hc, hclen⟩ :=
    maybeSplit_spec s pos hpos hlt
  have hdecomp := eq_take_cons_drop s1.chunks idx c hc
  have hlenA : (dAll (s1.chunks.take idx)).length = pos := by
    rw [← getPosition_eq_dAll_take]
    exact hgp
  have hgs : s.getString = dAll (s1.chunks.take idx)
      ++ (c.text kNullT12r ++ dAll (s1.chunks.drop (idx + 1))) := by
    rw [getString_eq_dAll, ← hdall]
    conv_lhs => rw [hdecomp]
    rw [dAll_append, dAll_cons]
  have hLs : s.getLength = pos + ((c.text kNullT12r).length
      + (dAll (s1.chunks.drop (idx + 1))).length) := by
    rw [getLength_eq_dAll, ← getString_eq_dAll, hgs]
    simp [List.length_append, hlenA]
  have htakeEq : s.getString.take pos = dAll (s1.chunks.take idx) := by
    rw [hgs]
    exact List.take_left' hlenA
  have hct1 : 1 ≤ (c.text kNullT12r).length := hclen
  have hdropEq : s.getString.drop (pos + 1)
      = (c.text kNullT12r).drop 1 ++ dAll (s1.chunks.drop (idx + 1)) := by
    have hct : c.text kNullT12r = (c.text kNullT12r).take 1
        ++ (c.text kNullT12r).drop 1 := (List.take_append_drop 1 _).symm
    have hpre : (dAll (s1.chunks.take idx)
        ++ (c.text kNullT12r).take 1).length = pos + 1 := by
      simp only [List.length_append, hlenA, List.length_take]
      omega
    rw [hgs]
    conv_lhs => rw [hct]
    rw [show dAll (s1.chunks.take idx) ++ (((c.text kNullT12r).take 1
          ++ (c.text kNullT12r).drop 1) ++ dAll (s1.chunks.drop (idx + 1)))
        = (dAll (s1.chunks.take idx) ++ (c.text kNullT12r).take 1)
          ++ ((c.text kNullT12r).drop 1 ++ dAll (s1.chunks.drop (idx + 1)))
      from by simp [List.append_assoc]]
    exact List.drop_left' hpre
  by_cases h1 : c.getLength kNullT12r = 1
  · have hdel : s.deleteAt pos
        = ({ s1 with chunks := s1.chunks.take idx
              ++ s1.chunks.drop (idx + 1) },
           getPosition kNullT12r s1.chunks idx) := by
      unfold Composition.deleteAt
      rw [hms]
      simp only [hc]
      rw [if_pos h1]
    have hlen1 : (c.text kNullT12r).length = 1 := h1
    have hdrop1 : (c.text kNullT12r).drop 1 = [] :=
      List.drop_eq_nil_of_le (by omega)
    rw [hdel]
    refine ⟨hgp, ?_, ?_⟩
    · rw [getString_eq_dAll]
      rw [htakeEq, hdropEq, hdrop1, List.nil_append]
      exact dAll_append _ _
    · rw [getLength_eq_dAll, ← getString_eq_dAll,
        show ({ s1 with chunks := s1.chunks.take idx
            ++ s1.chunks.drop (idx + 1) } : Composition).getString
          = dAll (s1.chunks.take idx) ++ dAll (s1.chunks.drop (idx + 1))
        from by rw [getString_eq_dAll]; exact dAll_append _ _]
      rw [hLs]
      simp [List.length_append, hlenA]
      omega
  · have hdel : s.deleteAt pos
        = ({ s1 with chunks := s1.chunks.take idx
              ++ (c.splitChunk kNullT12r 1).2 :: s1.chunks.drop (idx + 1) },
           getPosition kNullT12r s1.chunks idx) := by
      unfold Composition.deleteAt
      rw [hms]
      simp only [hc]
      rw [if_neg h1]
    have hflen : ((c.splitChunk kNullT12r 1).1.text kNullT12r).length = 1 :=
      splitChunk_fst_length c kNullT12r kNullT12r 1 hclen
    have hrtext : ((c.splitChunk kNullT12r 1).2).text kNullT12r
        = (c.text kNullT12r).drop 1 := by
      have happ := splitChunk_text_append c kNullT12r kNullT12r 1
      calc ((c.splitChunk kNullT12r 1).2).text kNullT12r
          = ((c.splitChunk kNullT12r 1).1.text kNullT12r
              ++ (c.splitChunk kNullT12r 1).2.text kNullT12r).drop
                ((c.splitChunk kNullT12r 1).1.text kNullT12r).length := by
            rw [List.drop_left]
        _ = (c.text kNullT12r).drop 1 := by rw [happ, hflen]
    rw [hdel]
    refine ⟨hgp, ?_, ?_⟩
    · rw [getString_eq_dAll]
      rw [htakeEq, hdropEq]
      rw [dAll_append, dAll_cons, hrtext]
    · rw [getLength_eq_dAll, ← getString_eq_dAll,
        show ({ s1 with chunks := s1.chunks.take idx
            ++ (c.splitChunk kNullT12r 1).2 :: s1.chunks.drop (idx + 1) }
              : Composition).getString
          = dAll (s1.chunks.take idx) ++ ((c.text kNullT12r).drop 1
              ++ dAll (s1.chunks.drop (idx + 1)))
        from by rw [getString_eq_dAll, dAll_append, dAll_cons, hrtext]]
      rw [hLs]
      simp [List.length_append, hlenA, List.length_drop]
      omega

/-- Buffer holding the single two-unit chunk `っと` (raw `tto`). -/
def sTto : Composition := ⟨[⟨['t','t','o'], ['っ','と'], [], none⟩], tbKa, none⟩

/-- Witness for C4: deleting at position 0 of the single two-unit chunk
`っと` discards the one-unit prefix and keeps `と`. -/
theorem deleteAt_inside_removes_unit_witness :
    ((∀ c ∈ sTto.chunks, 1 ≤ c.getLength kNullT12r) ∧ 0 < sTto.getLength) ∧
      (sTto.deleteAt 0).2 = 0 ∧
      (sTto.deleteAt 0).1.getString
        = sTto.getString.take 0 ++ sTto.getString.drop 1 ∧
      (sTto.deleteAt 0).1.getLength = sTto.getLength - 1 :=
  ⟨⟨by decide, by decide⟩,
   deleteAt_inside_removes_unit sTto 0 (by decide) (by decide)⟩


/-- The default-view length of a chunk, by the chunk's own override. -/
theorem getLength_none_eq (c : CharChunk) :
    c.getLength kNullT12r = match c.t12r.getD T12r.convT with
      | T12r.rawT => c.raw.length
      | T12r.convT => c.converted.length + c.pending.length := by
  rcases ht : c.t12r with _ | u
  · simp [CharChunk.getLength, CharChunk.text, CharChunk.getT12r, kNullT12r, ht]
  · cases u <;>
      simp [CharChunk.getLength, CharChunk.text, CharChunk.getT12r, kNullT12r,
        ht]

/-- A successful rule lookup returns a rule of the table. -/
theorem lookupRule_mem (tb : Table) (p out : List Char)
    (h : tb.lookupRule p = some out) : (p, out) ∈ tb.rules := by
  unfold Table.lookupRule at h
  cases hf : tb.rules.find? (fun r => r.1 == p) with
  | none => rw [hf] at h; simp at h
  | some r =>
    rw [hf] at h
    simp at h
    have hp : r.1 = p := by simpa using List.find?_some hf
    have hm := List.mem_of_find?_eq_some hf
    cases r with
    | mk r1 r2 =>
      simp only at hp h
      rw [← hp, ← h]
      exact hm

/-- Feeding a single key never decreases the chunk's default length when the
table never shrinks text by more than one unit per rule. -/
theorem feedOne_len (tb : Table) (hts : tb.nonShrinking) (c : CharChunk)
    (x : Char) :
    c.getLength kNullT12r ≤ (CharChunk.feedOne tb c x).getLength kNullT12r := by
  unfold CharChunk.feedOne
  by_cases hw : tb.awaitsMore (c.pending ++ [x])
  · rw [if_pos hw]
    rw [getLength_none_eq, getLength_none_eq]
    dsimp only
    cases c.t12r.getD T12r.convT
    · show c.raw.length ≤ (c.raw ++ [x]).length
      simp
    · show c.converted.length + c.pending.length
        ≤ c.converted.length + (c.pending ++ [x]).length
      simp
  · rw [if_neg hw]
    cases hr : tb.lookupRule (c.pending ++ [x]) with
    | none =>
      rw [getLength_none_eq, getLength_none_eq]
      dsimp only
      cases c.t12r.getD T12r.convT
      · show c.raw.length ≤ (c.raw ++ [x]).length
        simp
      · show c.converted.length + c.pending.length
          ≤ (c.converted ++ (c.pending ++ [x])).length
            + ([] : List Char).length
        simp only [List.length_append, List.length_nil]
        omega
    | some out =>
      have hmem := lookupRule_mem tb _ out hr
      have hlen := hts _ hmem
      have hlen2 : c.pending.length ≤ out.length := by
        simp only [List.length_append, List.length_singleton] at hlen
        omega
      rw [getLength_none_eq, getLength_none_eq]
      dsimp only
      cases c.t12r.getD T12r.convT
      · show c.raw.length ≤ (c.raw ++ [x]).length
        simp
      · show c.converted.length + c.pending.length
          ≤ (c.converted ++ out).length + ([] : List Char).length
        simp only [List.length_append, List.length_nil]
        omega

/-- `AddInput` never decreases the chunk's default length for a
non-shrinking table. -/
theorem addInput_len (tb : Table) (hts : tb.nonShrinking) (key : List Char) :
    ∀ (c : CharChunk),
      c.getLength kNullT12r
        ≤ (CharChunk.addInput tb c key).getLength kNullT12r := by
  induction key with
  | nil => intro c; exact le_refl _
  | cons x key ih =>
    intro c
    have h1 := feedOne_len tb hts c x
    have h2 := ih (CharChunk.feedOne tb c x)
    unfold CharChunk.addInput at h2 ⊢
    rw [List.foldl_cons]
    omega

/-- `MaybeSplitChunkAt` preserves the buffer's total default length, its
table and its input policy, at every position. -/
theorem maybeSplit_getLength (s : Composition) (pos : Nat) :
    (s.maybeSplitChunkAt pos).1.getLength = s.getLength ∧
    (s.maybeSplitChunkAt pos).1.table = s.table ∧
    (s.maybeSplitChunkAt pos).1.inputT12r = s.inputT12r := by
  unfold Composition.maybeSplitChunkAt
  by_cases h0 : pos = 0
  · rw [if_pos h0]
    exact ⟨rfl, rfl, rfl⟩
  · rw [if_neg h0]
    obtain ⟨j, i, hpair⟩ :
        ∃ j i, getChunkAtAux kNullT12r s.chunks pos = (j, i) := ⟨_, _, rfl⟩
    simp only [hpair]
    cases hc : s.chunks[j]? with
    | none => exact ⟨rfl, rfl, rfl⟩
    | some c =>
      dsimp only
      by_cases hend : i = c.getLength kNullT12r
      · rw [if_pos hend]
        exact ⟨rfl, rfl, rfl⟩
      · rw [if_neg hend]
        refine ⟨?_, rfl, rfl⟩
        rw [getLength_eq_dAll, getLength_eq_dAll]
        conv_rhs => rw [eq_take_cons_drop s.chunks j c hc]
        rw [dAll_append, dAll_append, dAll_cons, dAll_cons, dAll_cons,
          ← List.append_assoc ((c.splitChunk kNullT12r i).1.text kNullT12r),
          splitChunk_text_append]

/-- `GetLength` of a literal buffer measures the default display. -/
theorem getLength_mk (cs : List CharChunk) (tb : Table) (it : Option T12r) :
    (Composition.mk cs tb it).getLength = (dAll cs).length :=
  getLength_eq_dAll _

/-- Display length over a cons cell. -/
theorem length_dAll_cons (c : CharChunk) (cs : List CharChunk) :
    (dAll (c :: cs)).length = c.getLength kNullT12r + (dAll cs).length := by
  rw [dAll_cons, List.length_append]
  rfl

/-- Display length over an append. -/
theorem length_dAll_append (a b : List CharChunk) :
    (dAll (a ++ b)).length = (dAll a).length + (dAll b).length := by
  rw [dAll_append, List.length_append]

instance (tb : Table) : Decidable tb.nonShrinking := by
  unfold Table.nonShrinking
  infer_instance

/-- C8 (amended): for a table in which no rule maps a key to an output more
than one unit shorter than the key, inserting a non-empty input never
decreases `length(default)`. -/
theorem insertAt_length_nondecreasing (s : Composition) (pos : Nat)
    (input : List Char) (hts : Table.nonShrinking s.table)
    (hne : input ≠ []) :
    s.getLength ≤ ((s.insertAt pos input).1).getLength := by
  obtain ⟨hlen, htab, hinp⟩ := maybeSplit_getLength s pos
  obtain ⟨s1, idx, hms⟩ :
      ∃ s1 idx, s.maybeSplitChunkAt pos = (s1, idx) := ⟨_, _, rfl⟩
  rw [hms] at hlen htab hinp
  simp only at hlen htab hinp
  have hts1 : Table.nonShrinking s1.table := by rw [htab]; exact hts
  unfold Composition.insertAt
  rw [if_neg hne, hms]
  simp only
  by_cases hidx : idx = 0
  · rw [if_pos hidx]
    simp only [getLength_mk, length_dAll_cons]
    rw [← getLength_eq_dAll]
    omega
  · rw [if_neg hidx]
    cases hc : s1.chunks[idx - 1]? with
    | none =>
      simp only
      omega
    | some left =>
      dsimp only
      by_cases hap : left.isAppendable s1.inputT12r
      · rw [if_pos hap]
        have hadd := addInput_len s1.table hts1 input left
        have hdec := eq_take_cons_drop s1.chunks (idx - 1) left hc
        have hidx1 : idx - 1 + 1 = idx := by omega
        rw [hidx1] at hdec
        have hs1 : s1.getLength
            = (dAll (s1.chunks.take (idx - 1))).length
              + (left.getLength kNullT12r
                + (dAll (s1.chunks.drop idx)).length) := by
          rw [getLength_eq_dAll]
          conv_lhs => rw [hdec]
          rw [length_dAll_append, length_dAll_cons]
        simp only [getLength_mk, length_dAll_append, length_dAll_cons]
        omega
      · rw [if_neg hap]
        have hs1 : s1.getLength = (dAll (s1.chunks.take idx)).length
            + (dAll (s1.chunks.drop idx)).length := by
          rw [getLength_eq_dAll]
          conv_lhs => rw [← List.take_append_drop idx s1.chunks]
          rw [length_dAll_append]
        simp only [getLength_mk, length_dAll_append, length_dAll_cons]
        omega

/-- Witness for the amended C8 at the spec's own scenario: inserting `a`
after a pending `k` with the example table (which never shrinks by more than
one unit) keeps the length at 1 ≥ 1. -/
theorem insertAt_length_nondecreasing_witness :
    (Table.nonShrinking sK.table ∧ (['a'] : List Char) ≠ []) ∧
      sK.getLength ≤ ((sK.insertAt 1 ['a']).1).getLength :=
  ⟨⟨by decide, by decide⟩,
   insertAt_length_nondecreasing sK 1 ['a'] (by decide) (by decide)⟩

end Mozc
